import Mathlib

/-!
Verification development for the markdown language-service core:
configuration handling (`config.ts`), the slugifier / table-of-contents
builder, link extraction and resolution, the position-based document
highlight provider, and the version-checked document cache.

Positions, ranges and documents follow the LSP conventions used by the
code (zero-based line / character, ranges with inclusive containment for
cursor queries).
-/

namespace MdLs

/-- A zero-based text position (line, character), as in `vscode-languageserver-types`. -/
structure Pos where
  line : Nat
  character : Nat
deriving DecidableEq, Repr

/-- A text range given by start and stop positions. -/
structure Range where
  start : Pos
  stop : Pos
deriving DecidableEq, Repr

/-- Mirror of the test helper `makeRange(l1, c1, l2, c2)`. -/
def makeRange (l1 c1 l2 c2 : Nat) : Range :=
  ⟨⟨l1, c1⟩, ⟨l2, c2⟩⟩

/-- Document order on positions: by line, then by character. -/
def Pos.leb (a b : Pos) : Bool :=
  decide (a.line < b.line) || (decide (a.line = b.line) && decide (a.character ≤ b.character))

/-- Inclusive range membership, used for cursor-position queries. -/
def rangeContains (r : Range) (p : Pos) : Bool :=
  Pos.leb r.start p && Pos.leb p r.stop

/-- Document order on ranges: compare start positions by (line, character). -/
def rangeLeb (a b : Range) : Bool :=
  Pos.leb a.start b.start

theorem Pos.leb_total (a b : Pos) : Pos.leb a b = true ∨ Pos.leb b a = true := by
  simp only [Pos.leb, Bool.or_eq_true, Bool.and_eq_true, decide_eq_true_eq]
  omega

theorem rangeLeb_total (a b : Range) : rangeLeb a b = true ∨ rangeLeb b a = true :=
  Pos.leb_total a.start b.start

/-- Insert a range into a list sorted by document order. -/
def insertRange (r : Range) : List Range → List Range
  | [] => [r]
  | x :: xs => if rangeLeb r x then r :: x :: xs else x :: insertRange r xs

/-- Sort a list of ranges into document order (insertion sort; stable). -/
def sortRanges : List Range → List Range
  | [] => []
  | x :: xs => insertRange x (sortRanges xs)

/-- Sortedness of a range list with respect to document order. -/
def RangesSorted (l : List Range) : Prop :=
  List.Pairwise (fun a b => rangeLeb a b = true) l

theorem insertRange_perm (r : Range) (l : List Range) :
    List.Perm (insertRange r l) (r :: l) := by
  induction l with
  | nil => simp [insertRange]
  | cons x xs ih =>
    by_cases h : rangeLeb r x = true
    · simp [insertRange, h]
    · simp only [insertRange, h]
      rw [Bool.not_eq_true] at h
      simp only [h, Bool.false_eq_true, if_false]
      exact List.Perm.trans (List.Perm.cons x ih) (List.Perm.swap r x xs)

theorem sortRanges_perm (l : List Range) : List.Perm (sortRanges l) l := by
  induction l with
  | nil => simp [sortRanges]
  | cons x xs ih =>
    exact List.Perm.trans (insertRange_perm x (sortRanges xs)) (List.Perm.cons x ih)

theorem insertRange_sorted (r : Range) (l : List Range) (h : RangesSorted l) :
    RangesSorted (insertRange r l) := by
  induction l with
  | nil => exact List.pairwise_singleton _ r
  | cons x xs ih =>
    rcases List.pairwise_cons.mp h with ⟨hx, hxs⟩
    by_cases hr : rangeLeb r x = true
    · simp only [insertRange, hr, if_true]
      refine List.pairwise_cons.mpr ⟨?_, h⟩
      intro b hb
      rcases hb with _ | hb
      · exact hr
      · -- transitivity of rangeLeb through x
        have hxb := hx b (by assumption)
        simp only [rangeLeb, Pos.leb, Bool.or_eq_true, Bool.and_eq_true,
          decide_eq_true_eq] at hr hxb ⊢
        omega
    · simp only [insertRange, hr]
      rw [Bool.not_eq_true] at hr
      simp only [hr, Bool.false_eq_true, if_false]
      refine List.pairwise_cons.mpr ⟨?_, ih hxs⟩
      intro b hb
      have hbm := List.mem_cons.mp ((insertRange_perm r xs).mem_iff.mp hb)
      rcases hbm with hbm | hbm
      · subst hbm
        rcases rangeLeb_total x b with ht | ht
        · exact ht
        · rw [hr] at ht
          exact absurd ht (by simp)
      · exact hx b hbm

theorem sortRanges_sorted (l : List Range) : RangesSorted (sortRanges l) := by
  induction l with
  | nil => exact List.Pairwise.nil
  | cons x xs ih => exact insertRange_sorted x (sortRanges xs) ih

end MdLs

namespace MdLs.Config

/-!
Embedding of `src/config.ts`.
-/

/-- `preferredMdPathExtensionStyle` values from `LsConfiguration`. -/
inductive PathExtensionStyle where
  | auto
  | includeExtension
  | removeExtension
deriving DecidableEq, Repr

/-- Embedding of the `LsConfiguration` interface of `config.ts`.
The optional `preferredMdPathExtensionStyle` field is an `Option`. -/
structure LsConfiguration where
  markdownFileExtensions : List String
  knownLinkedToFileExtensions : List String
  excludePaths : List String
  preferredMdPathExtensionStyle : Option PathExtensionStyle
deriving DecidableEq, Repr

/-- Embedding of `Partial<LsConfiguration>`: every field may be absent. -/
structure PartialLsConfiguration where
  markdownFileExtensions : Option (List String)
  knownLinkedToFileExtensions : Option (List String)
  excludePaths : Option (List String)
  preferredMdPathExtensionStyle : Option (Option PathExtensionStyle)
deriving DecidableEq, Repr

/-- `Partial` value with no field present, i.e. the `{}` literal. -/
def PartialLsConfiguration.empty : PartialLsConfiguration :=
  ⟨none, none, none, none⟩

/-- `export const defaultMarkdownFileExtension = 'md'` from `config.ts`. -/
def defaultMarkdownFileExtension : String := "md"

/-- The `defaultConfig` constant of `config.ts`. -/
def defaultConfig : LsConfiguration where
  markdownFileExtensions := [defaultMarkdownFileExtension]
  knownLinkedToFileExtensions := ["jpg", "jpeg", "png", "gif", "webp", "bmp", "tiff"]
  excludePaths := ["**/.*", "**/node_modules/**"]
  preferredMdPathExtensionStyle := none

/-- `getLsConfiguration(overrides)` from `config.ts`: object spread of
`overrides` over `defaultConfig`, so a field present in `overrides` wins and
an absent field keeps the default. -/
def getLsConfiguration (overrides : PartialLsConfiguration) : LsConfiguration where
  markdownFileExtensions :=
    overrides.markdownFileExtensions.getD defaultConfig.markdownFileExtensions
  knownLinkedToFileExtensions :=
    overrides.knownLinkedToFileExtensions.getD defaultConfig.knownLinkedToFileExtensions
  excludePaths := overrides.excludePaths.getD defaultConfig.excludePaths
  preferredMdPathExtensionStyle :=
    overrides.preferredMdPathExtensionStyle.getD defaultConfig.preferredMdPathExtensionStyle

/-- `isExcludedPath(configuration, uri)` from `config.ts`:
`configuration.excludePaths.some(excludePath => picomatch.isMatch(uri.path, excludePath))`.
The external `picomatch.isMatch` glob matcher is passed in as `globMatch`
(first argument the path, second the pattern). -/
def isExcludedPath (globMatch : String → String → Bool)
    (configuration : LsConfiguration) (uriPath : String) : Bool :=
  configuration.excludePaths.any (fun excludePath => globMatch uriPath excludePath)

end MdLs.Config

namespace MdLs

/-!
Decimal rendering of numeric slug suffixes, and the slugifier.
-/

/-- The character for a decimal digit `d < 10`. -/
def digitChar (d : Nat) : Char := Char.ofNat (48 + d)

/-- Decimal digits of `n`, most significant first, computed with explicit
fuel so that the definition is structural (fuel `n + 1` always suffices). -/
def natDigitsAux : Nat → Nat → List Nat
  | 0, _ => []
  | fuel + 1, n => if n < 10 then [n] else natDigitsAux fuel (n / 10) ++ [n % 10]

/-- Decimal digits of `n`, most significant first. -/
def natDigits (n : Nat) : List Nat := natDigitsAux (n + 1) n

/-- Decimal string rendering of a natural number. -/
def natToDecimal (n : Nat) : String := ⟨(natDigits n).map digitChar⟩

/-- Value of a most-significant-first digit list. -/
def decodeDigits (l : List Nat) : Nat := l.foldl (fun a d => 10 * a + d) 0

theorem decodeDigits_append_digit (l : List Nat) (d : Nat) :
    decodeDigits (l ++ [d]) = 10 * decodeDigits l + d := by
  simp [decodeDigits, List.foldl_append]

theorem decodeDigits_natDigitsAux (fuel : Nat) :
    ∀ n, n < fuel → decodeDigits (natDigitsAux fuel n) = n := by
  induction fuel with
  | zero => intro n h; omega
  | succ fuel ih =>
    intro n h
    by_cases h10 : n < 10
    · simp [natDigitsAux, h10, decodeDigits]
    · have hpos : 0 < n := by omega
      have hdiv : n / 10 < n := Nat.div_lt_self hpos (by omega)
      have hfuel : n / 10 < fuel := by omega
      simp only [natDigitsAux, h10, if_false, decodeDigits_append_digit, ih _ hfuel]
      omega

theorem decodeDigits_natDigits (n : Nat) : decodeDigits (natDigits n) = n :=
  decodeDigits_natDigitsAux (n + 1) n (Nat.lt_succ_self n)

theorem natDigitsAux_lt_ten (fuel : Nat) :
    ∀ n d, d ∈ natDigitsAux fuel n → d < 10 := by
  induction fuel with
  | zero => intro n d h; simp [natDigitsAux] at h
  | succ fuel ih =>
    intro n d h
    by_cases h10 : n < 10
    · simp [natDigitsAux, h10] at h; omega
    · simp only [natDigitsAux, h10, if_false, List.mem_append, List.mem_singleton] at h
      rcases h with h | h
      · exact ih _ _ h
      · subst h; exact Nat.mod_lt n (by omega)

theorem digitChar_inj : ∀ d1, d1 < 10 → ∀ d2, d2 < 10 →
    digitChar d1 = digitChar d2 → d1 = d2 := by decide

theorem map_digitChar_inj : ∀ l1 l2 : List Nat, (∀ d ∈ l1, d < 10) → (∀ d ∈ l2, d < 10) →
    l1.map digitChar = l2.map digitChar → l1 = l2 := by
  intro l1
  induction l1 with
  | nil => intro l2 _ _ h; cases l2 <;> simp_all
  | cons a l1 ih =>
    intro l2 h1 h2 h
    cases l2 with
    | nil => simp at h
    | cons b l2 =>
      simp only [List.map_cons, List.cons.injEq] at h
      have hab : a = b :=
        digitChar_inj a (h1 a (List.mem_cons_self a l1)) b (h2 b (List.mem_cons_self b l2)) h.1
      have : l1 = l2 :=
        ih l2 (fun d hd => h1 d (List.mem_cons_of_mem a hd))
          (fun d hd => h2 d (List.mem_cons_of_mem b hd)) h.2
      simp [hab, this]

theorem natToDecimal_inj {m n : Nat} (h : natToDecimal m = natToDecimal n) : m = n := by
  have hdata : (natDigits m).map digitChar = (natDigits n).map digitChar :=
    congrArg String.data h
  have hdig : natDigits m = natDigits n :=
    map_digitChar_inj _ _ (fun d hd => natDigitsAux_lt_ten _ _ _ hd)
      (fun d hd => natDigitsAux_lt_ten _ _ _ hd) hdata
  calc m = decodeDigits (natDigits m) := (decodeDigits_natDigits m).symm
    _ = decodeDigits (natDigits n) := congrArg decodeDigits hdig
    _ = n := decodeDigits_natDigits n

/-- Whitespace as understood by the slugifier. -/
def isWsChar (c : Char) : Bool := c = ' ' || c = '\t'

/-- Modelled from the spec: the slugifier (`githubSlugifier`, not under `src/`),
step 1–2 of §4.1 — lowercase, then keep only alphanumerics, hyphen,
underscore and whitespace. -/
def slugChars (cs : List Char) : List Char :=
  (cs.map Char.toLower).filter (fun c => c.isAlphanum || c = '-' || c = '_' || isWsChar c)

/-- Modelled from the spec: §4.1 — collapse each whitespace run to a single
hyphen. The flag records whether a whitespace run is pending. -/
def collapseWs : Bool → List Char → List Char
  | _, [] => []
  | pending, c :: rest =>
    if isWsChar c then collapseWs true rest
    else (if pending then ['-'] else []) ++ c :: collapseWs false rest

/-- Modelled from the spec: §4.1 — trim leading and trailing hyphens. -/
def trimHyphens (cs : List Char) : List Char :=
  ((cs.dropWhile (fun c => c = '-')).reverse.dropWhile (fun c => c = '-')).reverse

/-- Modelled from the spec: the slugifier of §4.1 (`githubSlugifier` is not
under `src/`): lowercases, strips punctuation except hyphen/underscore,
collapses whitespace runs to a single hyphen, trims leading/trailing hyphens. -/
def slugify (s : String) : String :=
  ⟨trimHyphens (collapseWs false (slugChars s.data))⟩

/-- The slug obtained by appending numeric suffix `k` to a base slug. -/
def slugCandidate (base : String) (k : Nat) : String :=
  base ++ "-" ++ natToDecimal k

/-- Boolean membership of a slug in the set of already-assigned slugs. -/
def slugUsed (used : List String) (s : String) : Bool := decide (s ∈ used)

/-- Modelled from the spec: §3/§4.3 — search upward from suffix `k` for the
first candidate slug not yet used. Structural in the fuel; fuel
`used.length + 1` always finds a free candidate (see
`firstFreeSuffix_free`). -/
def firstFreeSuffix (used : List String) (base : String) : Nat → Nat → Nat
  | 0, k => k
  | fuel + 1, k =>
    if slugUsed used (slugCandidate base k) then firstFreeSuffix used base fuel (k + 1)
    else k

/-- Modelled from the spec: §3 — first occurrence of a heading text keeps the
bare slug; a later duplicate gets the smallest unused numeric suffix. -/
def uniqueSlug (used : List String) (base : String) : String :=
  if slugUsed used base then
    slugCandidate base (firstFreeSuffix used base (used.length + 1) 1)
  else base

theorem slugCandidate_inj (base : String) {k1 k2 : Nat}
    (h : slugCandidate base k1 = slugCandidate base k2) : k1 = k2 := by
  have hd := congrArg String.data h
  simp only [slugCandidate, String.data_append] at hd
  have := List.append_cancel_left hd
  exact natToDecimal_inj (String.ext this)

theorem firstFreeSuffix_ge (used : List String) (base : String) :
    ∀ fuel k, k ≤ firstFreeSuffix used base fuel k := by
  intro fuel
  induction fuel with
  | zero => intro k; simp [firstFreeSuffix]
  | succ fuel ih =>
    intro k
    by_cases h : slugUsed used (slugCandidate base k) = true
    · simp only [firstFreeSuffix, h, if_true]
      exact Nat.le_trans (Nat.le_succ k) (ih (k + 1))
    · simp [firstFreeSuffix, h]

theorem firstFreeSuffix_below_used (used : List String) (base : String) :
    ∀ fuel k j, k ≤ j → j < firstFreeSuffix used base fuel k →
      slugUsed used (slugCandidate base j) = true := by
  intro fuel
  induction fuel with
  | zero => intro k j hkj hj; simp [firstFreeSuffix] at hj; omega
  | succ fuel ih =>
    intro k j hkj hj
    by_cases h : slugUsed used (slugCandidate base k) = true
    · simp only [firstFreeSuffix, h, if_true] at hj
      rcases Nat.eq_or_lt_of_le hkj with heq | hlt
      · subst heq; exact h
      · exact ih (k + 1) j hlt hj
    · simp [firstFreeSuffix, h] at hj
      omega

theorem firstFreeSuffix_found (used : List String) (base : String) :
    ∀ fuel k, (∃ j, k ≤ j ∧ j < k + fuel ∧ slugUsed used (slugCandidate base j) = false) →
      slugUsed used (slugCandidate base (firstFreeSuffix used base fuel k)) = false := by
  intro fuel
  induction fuel with
  | zero => intro k ⟨j, hj1, hj2, _⟩; omega
  | succ fuel ih =>
    intro k ⟨j, hj1, hj2, hj3⟩
    by_cases h : slugUsed used (slugCandidate base k) = true
    · simp only [firstFreeSuffix, h, if_true]
      refine ih (k + 1) ⟨j, ?_, by omega, hj3⟩
      rcases Nat.eq_or_lt_of_le hj1 with heq | hlt
      · subst heq; rw [h] at hj3; exact absurd hj3 (by simp)
      · omega
    · simp only [firstFreeSuffix, h, Bool.false_eq_true, if_false]

/-- With fuel `used.length + 1`, some candidate among suffixes
`1 .. used.length + 1` is unused (pigeonhole over the distinct candidates). -/
theorem exists_free_candidate (used : List String) (base : String) :
    ∃ j, 1 ≤ j ∧ j < 1 + (used.length + 1) ∧
      slugUsed used (slugCandidate base j) = false := by
  by_contra hall
  push_neg at hall
  have hused : ∀ j, 1 ≤ j → j ≤ used.length + 1 → slugCandidate base j ∈ used := by
    intro j h1 h2
    have := hall j h1 (by omega)
    simpa [slugUsed] using this
  set cands : List String :=
    (List.range (used.length + 1)).map (fun i => slugCandidate base (i + 1)) with hc
  have hlen : cands.length = used.length + 1 := by simp [hc]
  have hnodup : cands.Nodup := by
    rw [hc]
    refine List.Nodup.map ?_ (List.nodup_range _)
    intro a b hab
    have := slugCandidate_inj base hab
    omega
  have hsub : cands ⊆ used := by
    intro s hs
    rw [hc] at hs
    simp only [List.mem_map, List.mem_range] at hs
    rcases hs with ⟨i, hi, rfl⟩
    exact hused (i + 1) (by omega) (by omega)
  have := (List.subperm_of_subset hnodup hsub).length_le
  omega

/-- The suffix chosen by `uniqueSlug` on a collision is genuinely unused. -/
theorem firstFreeSuffix_free (used : List String) (base : String) :
    slugUsed used (slugCandidate base (firstFreeSuffix used base (used.length + 1) 1)) = false :=
  firstFreeSuffix_found used base (used.length + 1) 1 (exists_free_candidate used base)

/-!
Table-of-contents builder (§4.3).
-/

/-- A table-of-contents entry: display text, unique slug, heading level and
the heading line's range. -/
structure TocEntry where
  text : String
  slug : String
  level : Nat
  range : Range
deriving DecidableEq, Repr

/-- Number of leading `#` characters. -/
def countHashes : List Char → Nat
  | '#' :: rest => countHashes rest + 1
  | _ => 0

/-- Modelled from the spec: the tokenizer is an external collaborator (§6);
an ATX heading line is 1–6 `#` characters followed by a space and the
heading's inline text. Returns (level, text) when the line is a heading. -/
def parseHeading (cs : List Char) : Option (Nat × List Char) :=
  let n := countHashes cs
  if 1 ≤ n ∧ n ≤ 6 then
    match cs.drop n with
    | ' ' :: rest => some (n, rest)
    | _ => none
  else none

/-- Modelled from the spec: §4.3 — scan the lines in order, capture each
heading's level, text and line range, and resolve slugs in appearance order
with the collision rule of §3 (`uniqueSlug`). -/
def tocOfLines : Nat → List String → List String → List TocEntry
  | _, _, [] => []
  | i, used, line :: rest =>
    match parseHeading line.data with
    | some (lvl, text) =>
      let slug := uniqueSlug used (slugify ⟨text⟩)
      { text := ⟨text⟩, slug := slug, level := lvl,
        range := makeRange i 0 i line.length } :: tocOfLines (i + 1) (slug :: used) rest
    | none => tocOfLines (i + 1) used rest

/-- Modelled from the spec: §4.3 — the table-of-contents of a document given
as its list of lines. -/
def buildToc (lines : List String) : List TocEntry :=
  tocOfLines 0 [] lines

/-!
Link extraction (§4.4). A link's target is split into an optional path part
and an optional fragment part, each with its sub-range; the fragment range
covers the `#` sigil followed by the fragment text, the path range stops just
before the `#`.
-/

/-- The path part of a link target: raw text and its sub-range. -/
structure PathPart where
  text : String
  range : Range
deriving DecidableEq, Repr

/-- The fragment part of a link target: the text after `#` and the sub-range
covering `#` plus the fragment text. -/
structure FragPart where
  text : String
  range : Range
deriving DecidableEq, Repr

/-- A link target: an external URI (absolute scheme present), or an internal
target made of an optional path part and an optional fragment part
(`path = none` for a fragment-only target such as `#slug`). -/
inductive LinkTarget where
  | externalUri (uri : String)
  | internalLink (path : Option PathPart) (frag : Option FragPart)
deriving DecidableEq, Repr

/-- A link occurrence: an inline link, a reference usage (with its label and
the label's sub-range), or a link reference definition. -/
inductive MdLink where
  | inlineLink (target : LinkTarget)
  | referenceLink (label : String) (labelRange : Range)
  | definitionLink (label : String) (labelRange : Range) (target : LinkTarget)
deriving DecidableEq, Repr

/-- The target of a link, for kinds that carry one. -/
def MdLink.target? : MdLink → Option LinkTarget
  | .inlineLink t => some t
  | .referenceLink _ _ => none
  | .definitionLink _ _ t => some t

/-- The reference label and its sub-range, for reference kinds. -/
def MdLink.label? : MdLink → Option (String × Range)
  | .inlineLink _ => none
  | .referenceLink l r => some (l, r)
  | .definitionLink l r _ => some (l, r)

/-- Does the character list contain the `://` scheme separator? -/
def hasSchemeSep : List Char → Bool
  | [] => false
  | ':' :: '/' :: '/' :: _ => true
  | _ :: rest => hasSchemeSep rest

/-- Modelled from the spec: §4.4 — classify a raw target string starting at
column `col` of line `lineIdx`: absolute scheme → external; otherwise split
at `#` into path sub-range and fragment sub-range. -/
def parseTarget (lineIdx col : Nat) (cs : List Char) : LinkTarget :=
  if hasSchemeSep cs then .externalUri ⟨cs⟩
  else
    match List.findIdx? (fun c => c = '#') cs with
    | none =>
      .internalLink (some ⟨⟨cs⟩, makeRange lineIdx col lineIdx (col + cs.length)⟩) none
    | some m =>
      let frag : FragPart :=
        ⟨⟨cs.drop (m + 1)⟩, makeRange lineIdx (col + m) lineIdx (col + cs.length)⟩
      if m = 0 then .internalLink none (some frag)
      else .internalLink (some ⟨⟨cs.take m⟩, makeRange lineIdx col lineIdx (col + m)⟩)
        (some frag)

/-- Modelled from the spec: §4.4 — a link reference definition line
`[label]: target` (optionally followed by a title). Returns the definition
record when the line is one. -/
def parseDefinition (lineIdx : Nat) (cs : List Char) : Option MdLink :=
  match cs with
  | '[' :: rest =>
    match List.findIdx? (fun c => c = ']') rest with
    | some jr =>
      match rest.drop (jr + 1) with
      | ':' :: afterColon =>
        let label := rest.take jr
        let wsCount := (afterColon.takeWhile isWsChar).length
        let tcs := (afterColon.drop wsCount).takeWhile (fun c => !isWsChar c)
        if label ≠ [] ∧ tcs ≠ [] then
          some (.definitionLink ⟨label⟩ (makeRange lineIdx 1 lineIdx (jr + 1))
            (parseTarget lineIdx (jr + 3 + wsCount) tcs))
        else none
      | _ => none
    | none => none
  | _ => none

/-- Modelled from the spec: §4.4 — scan a line for inline links
`[text](target …)` and reference usages `[label]`, `[label][]`,
`[text][label]`, recording each label / target sub-range. Structural in the
fuel; `scanLinks` supplies fuel `length + 1`, enough since every step
consumes at least one character. -/
def scanLinksAux (lineIdx : Nat) : Nat → Nat → List Char → List MdLink
  | 0, _, _ => []
  | _ + 1, _, [] => []
  | fuel + 1, col, c :: rest =>
    if c = '[' then
      match List.findIdx? (fun ch => ch = ']') rest with
      | none => []
      | some jr =>
        let text := rest.take jr
        let closeCol := col + 1 + jr
        match rest.drop (jr + 1) with
        | '(' :: afterParen =>
          (match List.findIdx? (fun ch => ch = ')') afterParen with
          | none => []
          | some kr =>
            let inside := afterParen.take kr
            let targetCs := inside.takeWhile (fun ch => !isWsChar ch)
            .inlineLink (parseTarget lineIdx (closeCol + 2) targetCs) ::
              scanLinksAux lineIdx fuel (closeCol + 2 + kr + 1) (afterParen.drop (kr + 1)))
        | '[' :: afterBracket2 =>
          (match List.findIdx? (fun ch => ch = ']') afterBracket2 with
          | none => []
          | some k2 =>
            let tail := scanLinksAux lineIdx fuel (closeCol + 2 + k2 + 1)
              (afterBracket2.drop (k2 + 1))
            if k2 = 0 then
              .referenceLink ⟨text⟩ (makeRange lineIdx (col + 1) lineIdx closeCol) :: tail
            else
              .referenceLink ⟨afterBracket2.take k2⟩
                (makeRange lineIdx (closeCol + 2) lineIdx (closeCol + 2 + k2)) :: tail)
        | afterBracket =>
          .referenceLink ⟨text⟩ (makeRange lineIdx (col + 1) lineIdx closeCol) ::
            scanLinksAux lineIdx fuel (closeCol + 1) afterBracket
    else scanLinksAux lineIdx fuel (col + 1) rest

/-- Scan one line starting at column `col` for link occurrences. -/
def scanLinks (lineIdx col : Nat) (cs : List Char) : List MdLink :=
  scanLinksAux lineIdx (cs.length + 1) col cs

/-- All link occurrences of one line: a heading line has none, a definition
line is a single definition record, any other line is scanned for inline
links and reference usages. -/
def lineLinks (lineIdx : Nat) (line : String) : List MdLink :=
  match parseHeading line.data with
  | some _ => []
  | none =>
    match parseDefinition lineIdx line.data with
    | some l => [l]
    | none => scanLinks lineIdx 0 line.data

/-- Link occurrences of all lines, in document order. -/
def docLinksAux : Nat → List String → List MdLink
  | _, [] => []
  | i, line :: rest => lineLinks i line ++ docLinksAux (i + 1) rest

/-- Modelled from the spec: §4.4 — the ordered link-record sequence of a
document given as its list of lines. -/
def docLinks (lines : List String) : List MdLink :=
  docLinksAux 0 lines

/-!
Documents, workspace and path resolution (§3, §4.4, §6).
-/

/-- A document: its workspace path (the URI's path, the unique key) and its
text as a list of lines. -/
structure Document where
  path : String
  lines : List String
deriving DecidableEq, Repr

/-- A workspace: the root folder's path and the set of markdown documents. -/
structure Workspace where
  root : String
  docs : List Document
deriving DecidableEq, Repr

/-- Split a path on `/` separators into segments. -/
def splitSegs : List Char → List (List Char)
  | [] => [[]]
  | '/' :: rest => [] :: splitSegs rest
  | c :: rest =>
    match splitSegs rest with
    | [] => [[c]]
    | s :: ss => (c :: s) :: ss

/-- Resolve `.` / `..` segments and drop empty segments, left to right with an
accumulator (most recent segment first). -/
def normSegs : List (List Char) → List (List Char) → List (List Char)
  | acc, [] => acc.reverse
  | acc, seg :: rest =>
    if seg = [] ∨ seg = ['.'] then normSegs acc rest
    else if seg = ['.', '.'] then normSegs (acc.drop 1) rest
    else normSegs (seg :: acc) rest

/-- Join segments into an absolute path string. -/
def joinSegs (segs : List (List Char)) : List Char :=
  segs.foldl (fun acc s => acc ++ '/' :: s) []

/-- Normalize an absolute path (resolve `.` / `..`, collapse separators). -/
def normalizePath (p : String) : String :=
  ⟨joinSegs (normSegs [] (splitSegs p.data))⟩

/-- The directory of a document path, as segments. -/
def dirSegs (p : String) : List (List Char) :=
  (splitSegs p.data).dropLast

/-- Modelled from the spec: §4.4 — resolve a link's path target: a
root-relative target (leading `/`) is resolved against the workspace root,
any other target against the source document's directory; the result is
normalized. -/
def resolveTargetPath (root docPath target : String) : String :=
  match target.data with
  | '/' :: _ => normalizePath (root ++ target)
  | _ => ⟨joinSegs (normSegs [] (dirSegs docPath ++ splitSegs target.data))⟩

/-- The document a link's fragment is validated against: the target path when
the link has a path part, the current document otherwise. -/
def fragTargetDoc (root docPath : String) : Option PathPart → String
  | none => docPath
  | some pp => resolveTargetPath root docPath pp.text

/-- Modelled from the spec: §3 — reference label normalization:
case-insensitive and whitespace-collapsed. -/
def collapseWsToSpace : Bool → List Char → List Char
  | _, [] => []
  | pending, c :: rest =>
    if isWsChar c then collapseWsToSpace true rest
    else (if pending then [' '] else []) ++ c :: collapseWsToSpace false rest

/-- Modelled from the spec: §3 — normalized form of a reference label. -/
def normalizeLabel (s : String) : String :=
  ⟨collapseWsToSpace false ((s.data.map Char.toLower).dropWhile isWsChar)⟩

/-!
Reference & highlight resolver (§4.5).
-/

/-- The logical entity under the cursor: a (target document, slug) pair for
headings and fragments, a normalized resolved path, or a normalized
reference label. -/
inductive Entity where
  | fragmentE (docPath : String) (slug : String)
  | pathE (path : String)
  | labelE (label : String)
deriving DecidableEq, Repr

/-- The fragment entity of a link at a position, when the position lies in
the link's fragment sub-range. -/
def linkFragAt (root : String) (doc : Document) (pos : Pos) (l : MdLink) : Option Entity :=
  match l.target? with
  | some (.internalLink p (some f)) =>
    if rangeContains f.range pos then
      some (.fragmentE (fragTargetDoc root doc.path p) (slugify f.text))
    else none
  | _ => none

/-- The path entity of a link at a position, when the position lies in the
link's path sub-range. -/
def linkPathAt (root : String) (doc : Document) (pos : Pos) (l : MdLink) : Option Entity :=
  match l.target? with
  | some (.internalLink (some pp) _) =>
    if rangeContains pp.range pos then
      some (.pathE (resolveTargetPath root doc.path pp.text))
    else none
  | _ => none

/-- The label entity of a link at a position, when the position lies in the
link's label sub-range. -/
def linkLabelAt (pos : Pos) (l : MdLink) : Option Entity :=
  match l.label? with
  | some (lab, r) =>
    if rangeContains r pos then some (.labelE (normalizeLabel lab)) else none
  | none => none

/-- Modelled from the spec: §4.5 step 1 — classify the cursor position, first
match wins: heading line, then link fragment sub-range, then link path
sub-range, then reference label; no match is `none`. -/
def classifyPosition (root : String) (doc : Document) (pos : Pos) : Option Entity :=
  match (buildToc doc.lines).find? (fun e => rangeContains e.range pos) with
  | some e => some (.fragmentE doc.path e.slug)
  | none =>
    match (docLinks doc.lines).findSome? (linkFragAt root doc pos) with
    | some ent => some ent
    | none =>
      match (docLinks doc.lines).findSome? (linkPathAt root doc pos) with
      | some ent => some ent
      | none => (docLinks doc.lines).findSome? (linkLabelAt pos)

/-- Modelled from the spec: §4.5 step 2 — every same-document range referring
to the given entity: for a fragment entity the matching headings plus every
link or definition whose resolved fragment matches; for a path entity every
occurrence with the same resolved path; for a label entity every usage and
definition sharing the normalized label. -/
def entityRanges (root : String) (doc : Document) : Entity → List Range
  | .fragmentE dpath slug =>
    (buildToc doc.lines).filterMap
      (fun e => if doc.path = dpath ∧ e.slug = slug then some e.range else none)
    ++ (docLinks doc.lines).filterMap (fun l =>
        match l.target? with
        | some (.internalLink p (some f)) =>
          if fragTargetDoc root doc.path p = dpath ∧ slugify f.text = slug then
            some f.range
          else none
        | _ => none)
  | .pathE p =>
    (docLinks doc.lines).filterMap (fun l =>
      match l.target? with
      | some (.internalLink (some pp) _) =>
        if resolveTargetPath root doc.path pp.text = p then some pp.range else none
      | _ => none)
  | .labelE lab =>
    (docLinks doc.lines).filterMap (fun l =>
      match l.label? with
      | some (l2, r) => if normalizeLabel l2 = lab then some r else none
      | none => none)

/-- The unsorted highlight ranges for a document and position (discovery
order: headings before links for a fragment entity, link scan order
otherwise). -/
def collectHighlights (root : String) (doc : Document) (pos : Pos) : List Range :=
  match classifyPosition root doc pos with
  | none => []
  | some ent => entityRanges root doc ent

/-- Modelled from the spec: §4.5 — `getDocumentHighlights`: classify the
position, enumerate the entity's same-document ranges, and return them
sorted by document order; empty when nothing matches. -/
def getHighlights (root : String) (doc : Document) (pos : Pos) : List Range :=
  match classifyPosition root doc pos with
  | none => []
  | some ent => sortRanges (entityRanges root doc ent)

/-- Look a document up in the workspace by its path. -/
def findDocument (ws : Workspace) (uri : String) : Option Document :=
  ws.docs.find? (fun d => d.path = uri)

/-- Modelled from the spec: §4.2/§7 — the URI-keyed entry point: a URI absent
from the workspace yields `none` (NotFound is a value, never an exception). -/
def getHighlightsForUri (ws : Workspace) (uri : String) (pos : Pos) : Option (List Range) :=
  match findDocument ws uri with
  | none => none
  | some d => some (getHighlights ws.root d pos)

/-!
The three highlight scenario documents of `documentHighlights.test.ts`
(`workspacePath('doc.md')` is `/workspace/doc.md`).
-/

/-- The fragment-highlight scenario document. -/
def fragmentScenarioDoc : Document where
  path := "/workspace/doc.md"
  lines := ["# A b C", "", "text [link](#a-b-c)", "text [link](#a-B-c \"title\")",
            "text [link](doc.md#a-B-c \"title\")", "", "[ref]: #a-B-c \"title\""]

/-- The five ranges expected for the fragment scenario, in document order. -/
def fragmentScenarioExpected : List Range :=
  [makeRange 0 0 0 7, makeRange 2 12 2 18, makeRange 3 12 3 18,
   makeRange 4 18 4 24, makeRange 6 7 6 13]

/-- The reference-label scenario document. -/
def referenceScenarioDoc : Document where
  path := "/workspace/doc.md"
  lines := ["[text][def]", "[def]", "[def][]", "[def][def]", "",
            "[def]: http://example.com"]

/-- The five label ranges expected for the reference scenario. -/
def referenceScenarioExpected : List Range :=
  [makeRange 0 7 0 10, makeRange 1 1 1 4, makeRange 2 1 2 4,
   makeRange 3 6 3 9, makeRange 5 1 5 4]

/-- The link-path scenario document. -/
def pathScenarioDoc : Document where
  path := "/workspace/doc.md"
  lines := ["# A b C", "", "text [link](other.md)", "text [link](./other.md)",
            "text [link](/other.md)", "text [link](other.md#frag)", "", "[ref]: other.md"]

/-- The five path ranges expected for the path scenario. -/
def pathScenarioExpected : List Range :=
  [makeRange 2 12 2 20, makeRange 3 12 3 22, makeRange 4 12 4 21,
   makeRange 5 12 5 20, makeRange 7 7 7 15]

/-- C1: in the document `# A b C` / blank / `text [link](#a-b-c)` /
`text [link](#a-B-c "title")` / `text [link](doc.md#a-B-c "title")` / blank /
`[ref]: #a-B-c "title"`, `getHighlights` triggered on the heading, inside any
of the three inline-link fragment sub-ranges, or inside the definition's
fragment returns the same 5 ranges in document order: the heading span
(0,0)–(0,7), the three link fragment spans, and the definition's fragment
span. -/
theorem highlights_fragment_scenario_all_triggers :
    getHighlights "/workspace" fragmentScenarioDoc ⟨0, 1⟩ = fragmentScenarioExpected
    ∧ getHighlights "/workspace" fragmentScenarioDoc ⟨2, 14⟩ = fragmentScenarioExpected
    ∧ getHighlights "/workspace" fragmentScenarioDoc ⟨3, 14⟩ = fragmentScenarioExpected
    ∧ getHighlights "/workspace" fragmentScenarioDoc ⟨4, 20⟩ = fragmentScenarioExpected
    ∧ getHighlights "/workspace" fragmentScenarioDoc ⟨6, 10⟩ = fragmentScenarioExpected :=
  ⟨rfl, rfl, rfl, rfl, rfl⟩

/-- C2: in the document `[text][def]` / `[def]` / `[def][]` / `[def][def]` /
blank / `[def]: http://example.com`, `getHighlights` triggered on the first
usage's label or on the definition's label returns the same 5 label ranges in
document order (the four usages then the definition). -/
theorem highlights_reference_scenario_all_triggers :
    getHighlights "/workspace" referenceScenarioDoc ⟨0, 8⟩ = referenceScenarioExpected
    ∧ getHighlights "/workspace" referenceScenarioDoc ⟨5, 1⟩ = referenceScenarioExpected :=
  ⟨rfl, rfl⟩

/-- C3: the spellings `other.md`, `./other.md`, `/other.md`, `other.md#frag`
and the definition target `other.md`, in a document at the workspace root,
all resolve to the same normalized path, and `getHighlights` triggered inside
any of the five path sub-ranges returns the same 5 path ranges in document
order. -/
theorem highlights_path_scenario_all_triggers :
    resolveTargetPath "/workspace" "/workspace/doc.md" "other.md" = "/workspace/other.md"
    ∧ resolveTargetPath "/workspace" "/workspace/doc.md" "./other.md" = "/workspace/other.md"
    ∧ resolveTargetPath "/workspace" "/workspace/doc.md" "/other.md" = "/workspace/other.md"
    ∧ getHighlights "/workspace" pathScenarioDoc ⟨2, 14⟩ = pathScenarioExpected
    ∧ getHighlights "/workspace" pathScenarioDoc ⟨3, 14⟩ = pathScenarioExpected
    ∧ getHighlights "/workspace" pathScenarioDoc ⟨4, 14⟩ = pathScenarioExpected
    ∧ getHighlights "/workspace" pathScenarioDoc ⟨5, 14⟩ = pathScenarioExpected
    ∧ getHighlights "/workspace" pathScenarioDoc ⟨7, 8⟩ = pathScenarioExpected :=
  ⟨rfl, rfl, rfl, rfl, rfl, rfl, rfl, rfl⟩

/-- C9: with the cursor on the path sub-range of `text [link](other.md#frag)`
(line 5), the highlight emitted for that occurrence is exactly the path
sub-range (5,12)–(5,20); no returned range extends over the `#frag` fragment
sub-range (5,20)–(5,25). -/
theorem highlights_path_excludes_fragment_range :
    getHighlights "/workspace" pathScenarioDoc ⟨5, 14⟩ = pathScenarioExpected
    ∧ makeRange 5 12 5 20 ∈ getHighlights "/workspace" pathScenarioDoc ⟨5, 14⟩
    ∧ makeRange 5 12 5 25 ∉ getHighlights "/workspace" pathScenarioDoc ⟨5, 14⟩
    ∧ makeRange 5 20 5 25 ∉ getHighlights "/workspace" pathScenarioDoc ⟨5, 14⟩ :=
  ⟨rfl, by decide, by decide, by decide⟩

/-- C6: for every workspace root, document and cursor position, the range
sequence returned by `getHighlights` is sorted by (line, column) — document
order — and is a permutation of the ranges in discovery order, so the result
order never depends on the scan's interleaving of headings and links. -/
theorem highlights_sorted_document_order (root : String) (doc : Document) (pos : Pos) :
    RangesSorted (getHighlights root doc pos)
    ∧ (getHighlights root doc pos).Perm (collectHighlights root doc pos) := by
  unfold getHighlights collectHighlights
  cases classifyPosition root doc pos with
  | none => exact ⟨List.Pairwise.nil, List.Perm.refl []⟩
  | some ent => exact ⟨sortRanges_sorted _, sortRanges_perm _⟩

/-- C8: a position matching no heading, no link fragment or path sub-range
and no reference label yields the empty highlight sequence, and a URI absent
from the workspace is reported as `none` rather than raised — both are
ordinary return values of total functions. -/
theorem highlights_no_match_empty :
    (∀ (root : String) (doc : Document) (pos : Pos),
      classifyPosition root doc pos = none → getHighlights root doc pos = [])
    ∧ (∀ (ws : Workspace) (uri : String) (pos : Pos),
      findDocument ws uri = none → getHighlightsForUri ws uri pos = none) := by
  constructor
  · intro root doc pos h
    unfold getHighlights
    rw [h]
  · intro ws uri pos h
    unfold getHighlightsForUri
    rw [h]

/-- Witness for C8: in the fragment scenario document, position (1,0) (the
blank line) matches nothing and yields `[]`; the URI `/workspace/missing.md`
is absent from an empty workspace and yields `none`. -/
theorem highlights_no_match_empty_witness :
    getHighlights "/workspace" fragmentScenarioDoc ⟨1, 0⟩ = []
    ∧ getHighlightsForUri ⟨"/workspace", []⟩ "/workspace/missing.md" ⟨0, 0⟩ = none :=
  ⟨highlights_no_match_empty.1 "/workspace" fragmentScenarioDoc ⟨1, 0⟩ rfl,
   highlights_no_match_empty.2 ⟨"/workspace", []⟩ "/workspace/missing.md" ⟨0, 0⟩ rfl⟩

/-- C4: three headings `A` in one document receive slugs `a`, `a-1`, `a-2` in
order; in general the first occurrence of a base slug keeps the bare slug,
and on a collision the assigned slug is `base-k` for the smallest numeric
suffix `k ≥ 1` whose candidate is not yet used. -/
theorem toc_slug_collision_rule :
    ((buildToc ["# A", "# A", "# A"]).map TocEntry.slug = ["a", "a-1", "a-2"])
    ∧ (∀ (used : List String) (base : String),
        slugUsed used base = false → uniqueSlug used base = base)
    ∧ (∀ (used : List String) (base : String), slugUsed used base = true →
        ∃ k, uniqueSlug used base = slugCandidate base k ∧ 1 ≤ k
          ∧ slugUsed used (slugCandidate base k) = false
          ∧ ∀ j, 1 ≤ j → j < k → slugUsed used (slugCandidate base j) = true) := by
  refine ⟨rfl, ?_, ?_⟩
  · intro used base h
    simp [uniqueSlug, h]
  · intro used base h
    refine ⟨firstFreeSuffix used base (used.length + 1) 1, ?_, ?_, ?_, ?_⟩
    · simp [uniqueSlug, h]
    · exact firstFreeSuffix_ge used base (used.length + 1) 1
    · exact firstFreeSuffix_free used base
    · intro j h1 h2
      exact firstFreeSuffix_below_used used base (used.length + 1) 1 j h1 h2

/-- Witness for C4: with no used slug, `x` stays bare; with `a` used, the
duplicate gets the smallest unused suffix (here suffix 1). -/
theorem toc_slug_collision_rule_witness :
    uniqueSlug [] "x" = "x"
    ∧ ∃ k, uniqueSlug ["a"] "a" = slugCandidate "a" k ∧ 1 ≤ k
        ∧ slugUsed ["a"] (slugCandidate "a" k) = false
        ∧ ∀ j, 1 ≤ j → j < k → slugUsed ["a"] (slugCandidate "a" j) = true :=
  ⟨toc_slug_collision_rule.2.1 [] "x" rfl,
   toc_slug_collision_rule.2.2 ["a"] "a" rfl⟩

end MdLs

namespace MdLs.Cache

/-!
Modelled from the spec: the generic Document Cache (§4.2, §5, §9) is not
under `src/`; only its behaviour is specified. Operations are asynchronous
but single-flow: concurrency arises solely from overlapping requests, so an
execution is an interleaving of atomic steps. The synchronous first phase of
a `get` performs the version check and, on a miss, installs the in-flight
computation's handle in the slot *before* the computation completes; the
settle step later replaces the pending handle by the computed value.
-/

/-- A cache slot: the shared computation handle, pending while in flight,
done once settled. -/
inductive Slot (α : Type) where
  | pending (handle : Nat)
  | done (handle : Nat) (value : α)
deriving DecidableEq, Repr

/-- The handle stored in a slot. -/
def Slot.handle : Slot α → Nat
  | .pending h => h
  | .done h _ => h

/-- The cache's state for one URI: the entry (version plus slot) if any, the
number of recomputations performed, and the next fresh handle. -/
structure CacheState (α : Type) where
  entry : Option (Nat × Slot α)
  computeCount : Nat
  nextHandle : Nat
deriving DecidableEq, Repr

/-- The empty cache. -/
def initState (α : Type) : CacheState α := ⟨none, 0, 0⟩

/-- Modelled from the spec: §4.2 — the atomic check-and-set phase of
`get(uri)` for a document at `version`: a valid entry for the current
version is returned as is (its handle is shared); otherwise a fresh pending
handle is installed in the slot immediately and one recomputation is
counted. -/
def getStep (version : Nat) (s : CacheState α) : Nat × CacheState α :=
  match s.entry with
  | some (v, slot) =>
    if v = version then (slot.handle, s)
    else (s.nextHandle,
      ⟨some (version, .pending s.nextHandle), s.computeCount + 1, s.nextHandle + 1⟩)
  | none =>
    (s.nextHandle,
      ⟨some (version, .pending s.nextHandle), s.computeCount + 1, s.nextHandle + 1⟩)

/-- The in-flight computation settles with `value`: the pending slot becomes
done. -/
def settle (value : α) (s : CacheState α) : CacheState α :=
  match s.entry with
  | some (v, .pending h) => ⟨some (v, .done h value), s.computeCount, s.nextHandle⟩
  | _ => s

/-- The value a waiter holding `h` observes once the slot has settled. -/
def valueOf (s : CacheState α) (h : Nat) : Option α :=
  match s.entry with
  | some (_, .done h2 v) => if h2 = h then some v else none
  | _ => none

/-- `n` sequential `getStep`s for the same version (the interleaving of `n`
concurrent `get` calls issued before the computation settles). Returns the
handles handed to the callers and the final state. -/
def getMany (version : Nat) : Nat → CacheState α → List Nat × CacheState α
  | 0, s => ([], s)
  | n + 1, s =>
    let p := getStep version s
    let q := getMany version n p.2
    (p.1 :: q.1, q.2)

/-- The state after the first miss installs pending handle 0. -/
def pendingState (α : Type) (version : Nat) : CacheState α :=
  ⟨some (version, .pending 0), 1, 1⟩

theorem getStep_hit (version : Nat) (slot : Slot α) (c nh : Nat) :
    getStep version (⟨some (version, slot), c, nh⟩ : CacheState α)
      = (slot.handle, ⟨some (version, slot), c, nh⟩) := by
  simp [getStep]

theorem getMany_pending (version : Nat) :
    ∀ n, getMany (α := α) version n (pendingState α version)
      = (List.replicate n 0, pendingState α version) := by
  intro n
  induction n with
  | zero => rfl
  | succ n ih =>
    have h := getStep_hit (α := α) version (.pending 0) 1 1
    simp only [getMany, pendingState] at ih ⊢
    rw [h]
    simp [ih, Slot.handle, List.replicate]

/-- C7: `n ≥ 1` concurrent `get` calls for the same (URI, version) issued
before the first recomputation settles perform exactly one recomputation and
all receive the same in-flight handle, hence the same value once it settles;
after the value is cached, a further `get` with no intervening change leaves
the state (and the recompute count) untouched. -/
theorem cache_coalesces_concurrent_gets {α : Type} (version : Nat) (value : α)
    (n : Nat) (hn : 1 ≤ n) :
    (getMany version n (initState α)).2.computeCount = 1
    ∧ (getMany version n (initState α)).1 = List.replicate n 0
    ∧ (∀ h ∈ (getMany version n (initState α)).1,
        valueOf (settle value (getMany version n (initState α)).2) h = some value)
    ∧ getStep version (settle value (getMany version n (initState α)).2)
        = (0, settle value (getMany version n (initState α)).2) := by
  obtain ⟨m, rfl⟩ : ∃ m, n = m + 1 := ⟨n - 1, by omega⟩
  have hg : getMany (α := α) version (m + 1) (initState α)
      = (List.replicate (m + 1) 0, pendingState α version) := by
    simp only [getMany]
    have h0 : getStep (α := α) version (initState α) = (0, pendingState α version) := rfl
    rw [h0, getMany_pending]
    simp [List.replicate]
  rw [hg]
  have hsettle : settle value (pendingState α version)
      = (⟨some (version, .done 0 value), 1, 1⟩ : CacheState α) := rfl
  refine ⟨rfl, rfl, ?_, ?_⟩
  · intro h hmem
    have h0 : h = 0 := List.eq_of_mem_replicate hmem
    subst h0
    rw [hsettle]
    rfl
  · rw [hsettle]
    exact getStep_hit version (.done 0 value) 1 1

/-- Witness for C7: three concurrent `get`s at version 5 of a `Nat`-valued
cache: one recomputation, all three callers hold handle 0, all observe the
settled value 42, and a later `get` changes nothing. -/
theorem cache_coalesces_concurrent_gets_witness :
    (getMany 5 3 (initState Nat)).2.computeCount = 1
    ∧ (getMany 5 3 (initState Nat)).1 = List.replicate 3 0
    ∧ (∀ h ∈ (getMany 5 3 (initState Nat)).1,
        valueOf (settle 42 (getMany 5 3 (initState Nat)).2) h = some 42)
    ∧ getStep 5 (settle 42 (getMany 5 3 (initState Nat)).2)
        = (0, settle 42 (getMany 5 3 (initState Nat)).2) :=
  cache_coalesces_concurrent_gets 5 42 3 (by decide)

end MdLs.Cache

namespace MdLs

/-!
Link resolution classification (§3 LinkRecord, §4.4).
-/

/-- The resolved classification of a link target (§3): internal fragment,
external path, external URI, or unresolved. -/
inductive LinkResolution where
  | internalFragment
  | externalPath
  | externalUriKind
  | unresolved
deriving DecidableEq, Repr

/-- Modelled from the spec: §4.4 — the resolver is not under `src/`.
Classify a link target: a fragment-only target is matched (slug-normalized)
against the current document's table of contents; an external URI is never
validated; a path target is resolved, then — unless its resolved path matches
an excluded-path glob (`isExcludedPath` of `config.ts`), in which case it is
exempt from existence and fragment validation — checked for existence in the
workspace and, when a fragment follows, against the target document's table
of contents. -/
def resolveLinkTarget (globMatch : String → String → Bool)
    (config : Config.LsConfiguration) (ws : Workspace) (doc : Document) :
    LinkTarget → LinkResolution
  | .externalUri _ => .externalUriKind
  | .internalLink none none => .unresolved
  | .internalLink none (some f) =>
    if (buildToc doc.lines).any (fun e => e.slug = slugify f.text) then .internalFragment
    else .unresolved
  | .internalLink (some pp) frag =>
    let resolved := resolveTargetPath ws.root doc.path pp.text
    if Config.isExcludedPath globMatch config resolved then .externalPath
    else
      match findDocument ws resolved with
      | none => .unresolved
      | some target =>
        match frag with
        | none => .externalPath
        | some f =>
          if (buildToc target.lines).any (fun e => e.slug = slugify f.text) then
            .externalPath
          else .unresolved

/-- C5: for every glob matcher, configuration, workspace, document and path
target, if the target's resolved path matches one of the configured
excluded-path globs (`isExcludedPath` returns `true`), the link's resolution
is never `unresolved` — even when the target file does not exist in the
workspace. (Extraction is independent of the configuration by construction:
`docLinks` does not take one, so the excluded link keeps its ranges and
text.) -/
theorem excluded_path_never_unresolved (globMatch : String → String → Bool)
    (config : Config.LsConfiguration) (ws : Workspace) (doc : Document)
    (pp : PathPart) (frag : Option FragPart)
    (hex : Config.isExcludedPath globMatch config
      (resolveTargetPath ws.root doc.path pp.text) = true) :
    resolveLinkTarget globMatch config ws doc (.internalLink (some pp) frag)
      ≠ LinkResolution.unresolved := by
  simp only [resolveLinkTarget, hex, if_true]
  simp

/-- Witness for C5: with the default configuration (whose exclude globs
include `**/node_modules/**`) and a matcher that recognizes that pattern on
`/workspace/node_modules/a.md`, the link to `node_modules/a.md` is excluded
and classified `externalPath`, not `unresolved`, although the workspace holds
no such file. -/
theorem excluded_path_never_unresolved_witness :
    Config.isExcludedPath
      (fun p pat => decide (p = "/workspace/node_modules/a.md" ∧ pat = "**/node_modules/**"))
      Config.defaultConfig
      (resolveTargetPath "/workspace" "/workspace/doc.md" "node_modules/a.md") = true
    ∧ resolveLinkTarget
        (fun p pat => decide (p = "/workspace/node_modules/a.md" ∧ pat = "**/node_modules/**"))
        Config.defaultConfig ⟨"/workspace", []⟩ ⟨"/workspace/doc.md", []⟩
        (.internalLink (some ⟨"node_modules/a.md", makeRange 0 12 0 29⟩) none)
      ≠ LinkResolution.unresolved :=
  ⟨rfl,
   excluded_path_never_unresolved
     (fun p pat => decide (p = "/workspace/node_modules/a.md" ∧ pat = "**/node_modules/**"))
     Config.defaultConfig ⟨"/workspace", []⟩ ⟨"/workspace/doc.md", []⟩
     ⟨"node_modules/a.md", makeRange 0 12 0 29⟩ none rfl⟩

end MdLs

namespace MdLs.Config

/-- C10: `getLsConfiguration(overrides)` gives every field present in
`overrides` the override's value and keeps the default for every absent
field; in particular `getLsConfiguration({})` has `markdownFileExtensions
= ['md']`, the seven image `knownLinkedToFileExtensions`, and `excludePaths
= ['**/.*', '**/node_modules/**']`. -/
theorem getLsConfiguration_overrides_defaults :
    (∀ o : PartialLsConfiguration,
      (∀ v, o.markdownFileExtensions = some v →
        (getLsConfiguration o).markdownFileExtensions = v)
      ∧ (o.markdownFileExtensions = none →
        (getLsConfiguration o).markdownFileExtensions = defaultConfig.markdownFileExtensions)
      ∧ (∀ v, o.knownLinkedToFileExtensions = some v →
        (getLsConfiguration o).knownLinkedToFileExtensions = v)
      ∧ (o.knownLinkedToFileExtensions = none →
        (getLsConfiguration o).knownLinkedToFileExtensions
          = defaultConfig.knownLinkedToFileExtensions)
      ∧ (∀ v, o.excludePaths = some v → (getLsConfiguration o).excludePaths = v)
      ∧ (o.excludePaths = none →
        (getLsConfiguration o).excludePaths = defaultConfig.excludePaths)
      ∧ (∀ v, o.preferredMdPathExtensionStyle = some v →
        (getLsConfiguration o).preferredMdPathExtensionStyle = v)
      ∧ (o.preferredMdPathExtensionStyle = none →
        (getLsConfiguration o).preferredMdPathExtensionStyle
          = defaultConfig.preferredMdPathExtensionStyle))
    ∧ (getLsConfiguration PartialLsConfiguration.empty).markdownFileExtensions = ["md"]
    ∧ (getLsConfiguration PartialLsConfiguration.empty).knownLinkedToFileExtensions
      = ["jpg", "jpeg", "png", "gif", "webp", "bmp", "tiff"]
    ∧ (getLsConfiguration PartialLsConfiguration.empty).excludePaths
      = ["**/.*", "**/node_modules/**"] := by
  refine ⟨?_, rfl, rfl, rfl⟩
  intro o
  refine ⟨?_, ?_, ?_, ?_, ?_, ?_, ?_, ?_⟩ <;>
    first
      | (intro v h; simp [getLsConfiguration, h])
      | (intro h; simp [getLsConfiguration, h])

/-- Witness for C10: an override of `markdownFileExtensions` alone takes
effect while `excludePaths` keeps its default. -/
theorem getLsConfiguration_overrides_defaults_witness :
    (getLsConfiguration ⟨some ["markdown"], none, none, none⟩).markdownFileExtensions
      = ["markdown"]
    ∧ (getLsConfiguration ⟨some ["markdown"], none, none, none⟩).excludePaths
      = defaultConfig.excludePaths :=
  ⟨(getLsConfiguration_overrides_defaults.1 ⟨some ["markdown"], none, none, none⟩).1
      ["markdown"] rfl,
   (getLsConfiguration_overrides_defaults.1
      ⟨some ["markdown"], none, none, none⟩).2.2.2.2.2.1 rfl⟩

end MdLs.Config
